import Mathlib

/-!
A shallow embedding of the markdown-board parser/serializer core of the
advanced-kanban repository (src/parsers: `listItemToItemData`,
`astToUnhydratedBoard`, `updateItemContent`, `reparseBoard`, `itemToMd`,
`laneToMd`, `archiveToMd`, `boardToMd`; and the `addItems` item update of
`src/components/Lane/Lane.tsx`), together with theorems checking the
specification's claims against it.

Modelling conventions:
* External collaborators that live outside the embedded source files
  (settings lookup, localization, title preprocessing, the inline-field
  extractor, the markdown fragment parser, hydration, text helpers from
  `helpers/parser`) are fields of an explicit `Env` record, mirroring how the
  code receives them through `stateManager` and imports.  Theorems quantify
  over the whole `Env` unless a claim pins a collaborator down.
* A thrown JavaScript exception is modelled as `Option.none` (`none` =
  "the call threw"); the code under embedding has no internal `try`/`catch`
  except the ones explicitly modelled.
* JavaScript strings are Lean `String`s; offsets index the character list.
* `generateInstanceId` is modelled as a fresh-counter threaded through the
  board assembler.
-/

/-- An inline `key:: value` field as produced by the external extractor
(`InlineField` of `helpers/inlineMetadata`): key, value and the half-open
offset span of the field in the scanned text. -/
structure InlineField where
  key : String
  value : String
  start : Nat
  endPos : Nat
  deriving Repr, DecidableEq

/-- `ItemMetadata` (src/components/types, lines 71-82).  The hydration-only
fields (`date`, `time` moments, `file`) are set exclusively by the external
`hydrateItem` collaborator and are therefore folded into the opaque
`Env.hydrateItem` function rather than modelled as fields. `fileMetadata` is
an opaque pass-through token. -/
structure ItemMetadata where
  dateStr : Option String := none
  timeStr : Option String := none
  tags : List String := []
  fileAccessor : Option String := none
  fileMetadata : Option String := none
  fileMetadataOrder : Option (List String) := none
  inlineMetadata : Option (List InlineField) := none
  deriving Repr, DecidableEq

/-- `ItemData` (src/components/types, lines 84-94).  `checked` is
`Option Bool` because the mdast `checked` flag can be absent (JS
`undefined`). -/
structure ItemData where
  blockId : Option String := none
  checked : Option Bool := none
  checkChar : String := " "
  title : String := ""
  titleRaw : String := ""
  titleSearch : String := ""
  titleSearchRaw : String := ""
  metadata : ItemMetadata := {}
  forceEditMode : Bool := false
  deriving Repr, DecidableEq

/-- `Item = Nestable<ItemData>`: a stable identifier plus its data. -/
structure Item where
  id : Nat
  data : ItemData
  deriving Repr, DecidableEq

/-- `LaneData` (src/components/types, lines 16-27). -/
structure LaneData where
  shouldMarkItemsComplete : Bool := false
  title : String := ""
  maxItems : Option Nat := none
  level : Option Nat := none
  isCollapsed : Bool := false
  parentId : Option Nat := none
  deriving Repr, DecidableEq

mutual
/-- A polymorphic lane child: `Lane | Item` (the `type` discriminant of the
TS tagged union becomes the constructor). -/
inductive LaneChild where
  | item (i : Item)
  | lane (l : Lane)

/-- `Lane = Nestable<LaneData, Lane | Item>`: identifier, data and ordered
polymorphic children. -/
inductive Lane where
  | mk (id : Nat) (data : LaneData) (children : List LaneChild)
end

/-- The lane's stable identifier. -/
def laneIdOf : Lane → Nat
  | .mk i _ _ => i

/-- The lane's data record. -/
def laneDataOf : Lane → LaneData
  | .mk _ d _ => d

/-- The lane's ordered children. -/
def laneChildrenOf : Lane → List LaneChild
  | .mk _ _ cs => cs

/-- `isItem` of src/components/types (line 192), as a projection to the item
payload. -/
def childItem : LaneChild → Option Item
  | .item i => some i
  | .lane _ => none

/-- `isLane` of src/components/types (line 188), as a projection to the lane
payload. -/
def childLane : LaneChild → Option Lane
  | .item _ => none
  | .lane l => some l

/-- An mdast inline/content node as consumed by `listItemToItemData`.
Constructors carry the node `type` tag, the payload fields the code reads
(`value`, `alt`, `date`, `time`, `fileAccessor`, ...) and the source position
offsets (`position.start.offset`, `position.end.offset`). -/
inductive INode where
  | text (value : String) (startOff endOff : Nat)
  | hashtag (value : String) (startOff endOff : Nat)
  | inlineCode (value : String) (startOff endOff : Nat)
  | code (value : String) (startOff endOff : Nat)
  | image (alt : String) (startOff endOff : Nat)
  | date (dateVal : String) (startOff endOff : Nat)
  | dateLink (dateVal : String) (startOff endOff : Nat)
  | time (timeVal : String) (startOff endOff : Nat)
  | blockid (value : String) (startOff endOff : Nat)
  | wikilink (value : String) (fileAccessor : String) (fileMetadata : Option String)
      (fileMetadataOrder : Option (List String)) (startOff endOff : Nat)
  | embedWikilink (value : String) (fileAccessor : String) (startOff endOff : Nat)
  | link (fileAccessor : Option String) (fileMetadata : Option String)
      (fileMetadataOrder : Option (List String)) (children : List INode) (startOff endOff : Nat)
  | embedLink (fileAccessor : String) (startOff endOff : Nat)
  | paragraph (children : List INode) (startOff endOff : Nat)
  | other (children : List INode) (startOff endOff : Nat)

/-- The node's `position.start.offset`. -/
def INode.startOffset : INode → Nat
  | .text _ s _ => s
  | .hashtag _ s _ => s
  | .inlineCode _ s _ => s
  | .code _ s _ => s
  | .image _ s _ => s
  | .date _ s _ => s
  | .dateLink _ s _ => s
  | .time _ s _ => s
  | .blockid _ s _ => s
  | .wikilink _ _ _ _ s _ => s
  | .embedWikilink _ _ s _ => s
  | .link _ _ _ _ s _ => s
  | .embedLink _ s _ => s
  | .paragraph _ s _ => s
  | .other _ s _ => s

/-- The node's `position.end.offset`. -/
def INode.endOffset : INode → Nat
  | .text _ _ e => e
  | .hashtag _ _ e => e
  | .inlineCode _ _ e => e
  | .code _ _ e => e
  | .image _ _ e => e
  | .date _ _ e => e
  | .dateLink _ _ e => e
  | .time _ _ e => e
  | .blockid _ _ e => e
  | .wikilink _ _ _ _ _ e => e
  | .embedWikilink _ _ _ e => e
  | .link _ _ _ _ _ e => e
  | .embedLink _ _ e => e
  | .paragraph _ _ e => e
  | .other _ _ e => e

/-- The node's children (empty for childless node kinds). -/
def INode.childNodes : INode → List INode
  | .link _ _ _ cs _ _ => cs
  | .paragraph cs _ _ => cs
  | .other cs _ _ => cs
  | _ => []

/-- Whether the node's `type` tag is `paragraph`. -/
def INode.isParagraph : INode → Bool
  | .paragraph _ _ _ => true
  | _ => false

/-- The node's `.value` property as JavaScript would read it (`undefined`
when the node kind has no `value`). -/
def INode.valueOf : INode → Option String
  | .text v _ _ => some v
  | .hashtag v _ _ => some v
  | .inlineCode v _ _ => some v
  | .code v _ _ => some v
  | .blockid v _ _ => some v
  | .wikilink v _ _ _ _ _ => some v
  | .embedWikilink v _ _ _ => some v
  | _ => none

/-- A `TaskItem` node (interface at the top of the parser source: an mdast
`ListItem` plus the custom `checkChar`).  `checked` and `checkChar` are
optional exactly as in the TS types. -/
structure TaskItem where
  children : List INode
  checked : Option Bool := none
  checkChar : Option String := none

/-- A top-level document block of the mdast `Root`, carrying exactly what
`astToUnhydratedBoard` reads from each kind: heading depth and content text
(the content boundary extraction of the external `getNodeContentBoundary` /
`getStringFromBoundary` and `toString` helpers is modelled as this stored
content string, per spec section 4.1), paragraph text (its `toString`), a
list's task items, and the `thematicBreak` / `code` tags. -/
inductive Block where
  | heading (depth : Nat) (content : String)
  | paragraph (text : String)
  | list (items : List TaskItem)
  | thematicBreak
  | code (value : String)
  | other

/-- `BoardData` (src/components/types, lines 101-107); `settings` and
`frontmatter` are opaque pass-through tokens. -/
structure BoardData where
  isSearching : Bool := false
  settings : String := ""
  frontmatter : String := ""
  archive : List Item := []
  errors : List String := []

/-- `Board = Nestable<BoardData, Lane>`. -/
structure Board where
  id : String
  children : List Lane
  data : BoardData

/-- The external collaborators the embedded core consumes (spec section 6):
settings lookups through `stateManager.getSetting`, localization `t`,
the title preprocessing hook, the inline-field extractor and reserved-key
set, the text helpers of `helpers/parser` and `helpers/common`, the fragment
parser, and hydration.  Each is an opaque function/value parameter. -/
structure Env where
  moveTags : Bool := false
  moveDates : Bool := false
  moveTaskData : Bool := false
  inlineMetadataPosition : String := "body"
  preprocessTitle : String → String := id
  extractInlineFields : String → List InlineField := fun _ => []
  taskFields : List String := ["due", "scheduled", "start", "priority"]
  dedentNewLines : String → String := id
  indentNewLines : String → String := id
  replaceBrs : String → String := id
  removeBlockId : String → String := id
  addBlockId : String → Option String → String := fun s _ => s
  replaceNewLines : String → String := id
  laneTitleWithMaxItems : String → Option Nat → String := fun s _ => s
  parseLaneTitle : String → String × Option Nat := fun s => (s, none)
  tArchive : String := "Archive"
  tComplete : String := "Complete"
  completeString : String := "**Complete**"
  archiveString : String := "***"
  settingsToCodeblock : String := ""
  stringifyYaml : String → String := id
  parseFragment : String → List Block := fun _ => []
  hydrateItem : ItemData → ItemData := id
  filePath : String := "file.md"

/-- Extract `source[start:end]` over the character list (the external
`getStringFromBoundary`, modelled from spec section 4.1). -/
def getStringFromBoundary (md : String) (start endOff : Nat) : String :=
  String.mk ((md.toList.drop start).take (endOff - start))

/-- Whether a character list begins with the given pattern. -/
def listBeginsWith : List Char → List Char → Bool
  | _, [] => true
  | [], _ :: _ => false
  | a :: as, b :: bs => a = b && listBeginsWith as bs

/-- Whether a string begins with the given pattern (JS `String.startsWith`). -/
def strBeginsWith (s pat : String) : Bool :=
  listBeginsWith s.toList pat.toList

/-- JS `String.indexOf('\n')`: the offset of the first line break, `-1` when
there is none. -/
def firstLineEndOf (title : String) : Int :=
  match title.toList.findIdx? (· = '\n') with
  | some i => (i : Int)
  | none => -1

/-- Lexicographic comparison on character lists by code point; the basis of
the modelled `defaultSort`. -/
def lexLe : List Char → List Char → Bool
  | [], _ => true
  | _ :: _, [] => false
  | a :: as, b :: bs =>
    if a.toNat < b.toNat then true
    else if b.toNat < a.toNat then false
    else lexLe as bs

/-- Modelled from the spec: `defaultSort` of `src/helpers/util` is not part
of the embedded sources; the spec calls it "the default deterministic string
comparator", modelled as code-point lexicographic order. -/
def defaultSort : String → String → Prop :=
  fun a b => lexLe a.toList b.toList = true

instance : DecidableRel defaultSort := fun a b =>
  inferInstanceAs (Decidable (lexLe a.toList b.toList = true))

theorem lexLe_total (x y : List Char) : lexLe x y = true ∨ lexLe y x = true := by
  induction x generalizing y with
  | nil => left; rfl
  | cons a as ih =>
    cases y with
    | nil => right; rfl
    | cons b bs =>
      rcases Nat.lt_trichotomy a.toNat b.toNat with h | h | h
      · left; simp [lexLe, h]
      · have h2 : ¬ a.toNat < b.toNat := by omega
        have h3 : ¬ b.toNat < a.toNat := by omega
        rcases ih bs with h4 | h4
        · left; simp [lexLe, h2, h3, h4]
        · right; simp [lexLe, h2, h3, h4]
      · right; simp [lexLe, h]

theorem lexLe_trans {x y z : List Char} (h1 : lexLe x y = true)
    (h2 : lexLe y z = true) : lexLe x z = true := by
  induction x generalizing y z with
  | nil => rfl
  | cons a as ih =>
    cases y with
    | nil => simp [lexLe] at h1
    | cons b bs =>
      cases z with
      | nil => simp [lexLe] at h2
      | cons c cs =>
        by_cases hab : a.toNat < b.toNat
        · by_cases hbc : b.toNat < c.toNat
          · have : a.toNat < c.toNat := by omega
            simp [lexLe, this]
          · by_cases hcb : c.toNat < b.toNat
            · simp [lexLe, hbc, hcb] at h2
            · have : a.toNat < c.toNat := by omega
              simp [lexLe, this]
        · by_cases hba : b.toNat < a.toNat
          · simp [lexLe, hab, hba] at h1
          · by_cases hbc : b.toNat < c.toNat
            · have : a.toNat < c.toNat := by omega
              simp [lexLe, this]
            · by_cases hcb : c.toNat < b.toNat
              · simp [lexLe, hbc, hcb] at h2
              · have hac : ¬ a.toNat < c.toNat := by omega
                have hca : ¬ c.toNat < a.toNat := by omega
                simp [lexLe, hab, hba] at h1
                simp [lexLe, hbc, hcb] at h2
                simp [lexLe, hac, hca]
                exact ih h1 h2

instance : IsTotal String defaultSort :=
  ⟨fun a b => lexLe_total a.toList b.toList⟩

instance : IsTrans String defaultSort :=
  ⟨fun _ _ _ h1 h2 => lexLe_trans h1 h2⟩

/-- A half-open offset range marked for deletion. -/
structure DelRange where
  start : Nat
  endPos : Nat
  deriving Repr, DecidableEq

/-- A text together with its accumulated deletion marks.  Modelled from the
spec (section 4.3): `markRangeForDeletion` of `helpers/parser` "records a
half-open range against the text without mutating it". -/
structure MarkedText where
  text : String
  marks : List DelRange
  deriving Repr, DecidableEq

/-- Modelled from the spec (section 4.3): record one more range. -/
def markRangeForDeletion (m : MarkedText) (r : DelRange) : MarkedText :=
  { m with marks := m.marks ++ [r] }

/-- Ordering used to process deletion ranges back-to-front. -/
def delRangeGe (a b : DelRange) : Prop := b.start ≤ a.start

instance : DecidableRel delRangeGe := fun a b => Nat.decLe b.start a.start

/-- Remove one half-open range from a character list. -/
def deleteRange (s : List Char) (r : DelRange) : List Char :=
  s.take r.start ++ s.drop r.endPos

/-- Modelled from the spec (section 4.3): `executeDeletion` of
`helpers/parser` removes every marked range, "ranges processed back-to-front
so earlier offsets stay valid". -/
def executeDeletion (m : MarkedText) : String :=
  String.mk ((m.marks.insertionSort delRangeGe).foldl deleteRange m.text.toList)

/-- Modelled from the spec (section 4.1): the content-only offset range of a
node.  For the paragraph nodes this parser applies it to, the content spans
from the first child's start to the last child's end (a paragraph has no
marker characters), falling back to the node's own position when childless. -/
def getNodeContentBoundary (n : INode) : Nat × Nat :=
  match n.childNodes with
  | [] => (n.startOffset, n.endOffset)
  | c :: cs => (c.startOffset, (cs.getLastD c).endOffset)

/-- The guard of both hashtag branches of `listItemToItemData` (lines 85 and
130): a hashtag counts only when the parent's first child's `value` does not
start with a code fence. -/
def hashtagAllowed (parentChildren : List INode) : Bool :=
  match parentChildren.head? with
  | some fc =>
    match fc.valueOf with
    | some v => !(strBeginsWith v "```")
    | none => true
  | none => true

mutual
/-- One node of the first `visit` of `listItemToItemData` (lines 80-92): the
flattened `titleSearch` text contributed by this node and its subtree.  The
visited node kinds are exactly `text`, `wikilink`, `embedWikilink`, `image`,
`inlineCode`, `code` and `hashtag`; contribution is `node.value || node.alt`
(so `alt` for images), and a hashtag contributes a `#`-prefixed form only
when `hashtagAllowed` holds for its parent. -/
def searchVisitNode (parentChildren : List INode) : INode → String
  | .text v _ _ => v
  | .hashtag v _ _ => if hashtagAllowed parentChildren then " #" ++ v else ""
  | .inlineCode v _ _ => v
  | .code v _ _ => v
  | .image alt _ _ => alt
  | .wikilink v _ _ _ _ _ => v
  | .embedWikilink v _ _ _ => v
  | .link _ _ _ cs _ _ => searchVisitList cs cs
  | .paragraph cs _ _ => searchVisitList cs cs
  | .other cs _ _ => searchVisitList cs cs
  | _ => ""

/-- Preorder fold of `searchVisitNode` over a sibling list whose parent's
children are `parentChildren`. -/
def searchVisitList (parentChildren : List INode) : List INode → String
  | [] => ""
  | n :: rest => searchVisitNode parentChildren n ++ searchVisitList parentChildren rest
end

/-- The mutable state of the second `visit` of `listItemToItemData` (lines
115-194): the item data being filled in and the title with its accumulated
deletion marks. -/
structure MetaState where
  itemData : ItemData
  title : MarkedText

/-- Mark a node's span (relative to the item boundary start) for deletion
from the title when the given move setting is on. -/
def markIfMoved (flag : Bool) (st : MetaState) (s e ibStart : Nat) : MarkedText :=
  if flag then markRangeForDeletion st.title ⟨s - ibStart, e - ibStart⟩ else st.title

mutual
/-- One node of the second `visit` of `listItemToItemData` (lines 115-194):
the visitor runs on every non-paragraph node, dispatching on the node kind.
Every dispatch returns `true` (unist CONTINUE), so children are always
traversed afterwards. -/
def metaVisitNode (env : Env) (ibStart : Nat) (parentChildren : List INode) (st : MetaState) :
    INode → MetaState
  | .blockid v _ _ =>
    { st with itemData := { st.itemData with blockId := some v } }
  | .hashtag v s e =>
    if hashtagAllowed parentChildren then
      { itemData := { st.itemData with metadata :=
          { st.itemData.metadata with tags := st.itemData.metadata.tags ++ ["#" ++ v] } },
        title := markIfMoved env.moveTags st s e ibStart }
    else st
  | .date d s e =>
    { itemData := { st.itemData with metadata := { st.itemData.metadata with dateStr := some d } },
      title := markIfMoved env.moveDates st s e ibStart }
  | .dateLink d s e =>
    { itemData := { st.itemData with metadata := { st.itemData.metadata with dateStr := some d } },
      title := markIfMoved env.moveDates st s e ibStart }
  | .time t s e =>
    { itemData := { st.itemData with metadata := { st.itemData.metadata with timeStr := some t } },
      title := markIfMoved env.moveDates st s e ibStart }
  | .embedWikilink _ acc _ _ =>
    { st with itemData := { st.itemData with metadata :=
        { st.itemData.metadata with fileAccessor := some acc } } }
  | .wikilink _ acc fm fmo _ _ =>
    let m := st.itemData.metadata
    let m' := { m with fileAccessor := some acc, fileMetadata := fm, fileMetadataOrder := fmo }
    { st with itemData := { st.itemData with metadata := m' } }
  | .link accOpt fm fmo cs _ _ =>
    let st' :=
      match accOpt with
      | some acc =>
        let m := st.itemData.metadata
        let m' := { m with fileAccessor := some acc, fileMetadata := fm, fileMetadataOrder := fmo }
        { st with itemData := { st.itemData with metadata := m' } }
      | none => st
    metaVisitList env ibStart cs st' cs
  | .embedLink acc _ _ =>
    { st with itemData := { st.itemData with metadata :=
        { st.itemData.metadata with fileAccessor := some acc } } }
  | .paragraph cs _ _ => metaVisitList env ibStart cs st cs
  | .other cs _ _ => metaVisitList env ibStart cs st cs
  | _ => st

/-- Preorder fold of `metaVisitNode` over a sibling list whose parent's
children are `parentChildren`. -/
def metaVisitList (env : Env) (ibStart : Nat) (parentChildren : List INode) (st : MetaState) :
    List INode → MetaState
  | [] => st
  | n :: rest =>
    metaVisitList env ibStart parentChildren (metaVisitNode env ibStart parentChildren st n) rest
end

/-- Lines 201-207 of `listItemToItemData`: the reduce deciding which
extracted inline fields are kept in `metadata.inlineMetadata`.  A reserved
(task-field) key is kept only when `firstLineEnd <= 0` or the field ends
strictly before the first line break. -/
def retainedFields (env : Env) (firstLineEnd : Int) (fields : List InlineField) : List InlineField :=
  fields.foldl (fun acc curr =>
    if ¬ (env.taskFields.contains curr.key = true) then acc ++ [curr]
    else if firstLineEnd ≤ 0 ∨ (curr.endPos : Int) < firstLineEnd then acc ++ [curr]
    else acc) []

/-- `listItemToItemData` (parser source lines 53-230): decompose one task
list item into its `ItemData`.  Returns `none` exactly when the item node
has no content children (the code would throw on
`item.children.first().type`). -/
def listItemToItemData (env : Env) (md : String) (item : TaskItem) : Option ItemData :=
  match item.children with
  | [] => none
  | c0 :: crest =>
    let startNode := c0
    let endNode := crest.getLastD c0
    let start := if startNode.isParagraph then (getNodeContentBoundary startNode).1
      else startNode.startOffset
    let endOff := if endNode.isParagraph then (getNodeContentBoundary endNode).2
      else endNode.endOffset
    let itemContent0 := getStringFromBoundary md start endOff
    let emptyMark : String :=
      if item.checked = some true then
        match item.checkChar with
        | some c => c
        | none => "undefined"
      else " "
    let itemContent := if itemContent0 = "[" ++ emptyMark ++ "]" then "" else itemContent0
    let titleSearch := searchVisitList item.children item.children
    let itemData0 : ItemData := {
      titleRaw := env.removeBlockId (env.dedentNewLines (env.replaceBrs itemContent)),
      blockId := none,
      title := "",
      titleSearch := titleSearch,
      titleSearchRaw := titleSearch,
      metadata := { dateStr := none, timeStr := none, tags := [], fileAccessor := none,
                    fileMetadata := none, fileMetadataOrder := none, inlineMetadata := none },
      checked := item.checked,
      checkChar :=
        if item.checked = some true then
          match item.checkChar with
          | some c => if c = "" then " " else c
          | none => " "
        else " ",
      forceEditMode := false }
    let st0 : MetaState := { itemData := itemData0, title := { text := itemContent, marks := [] } }
    let st := metaVisitList env start item.children st0 item.children
    let title1 := env.preprocessTitle (env.dedentNewLines (executeDeletion st.title))
    let d1 := { st.itemData with title := title1 }
    let firstLineEnd := firstLineEndOf d1.title
    let inlineFields := env.extractInlineFields d1.title
    let d2 :=
      if inlineFields.length ≠ 0 then
        let inlineMetadata := retainedFields env firstLineEnd inlineFields
        let d2a := { d1 with metadata := { d1.metadata with inlineMetadata := some inlineMetadata } }
        let moveTaskData := env.moveTaskData
        let moveMetadata := env.inlineMetadataPosition ≠ "body"
        if moveTaskData = true ∨ moveMetadata then
          let newTitle := inlineMetadata.reverse.foldl (fun t itm =>
            let isTask := env.taskFields.contains itm.key
            if isTask = true ∧ ¬ moveTaskData = true then t
            else if ¬ isTask = true ∧ ¬ moveMetadata then t
            else String.mk (t.toList.take itm.start) ++ String.mk (t.toList.drop itm.endPos))
            d2a.title
          { d2a with title := newTitle }
        else d2a
      else d1
    some { d2 with metadata :=
      { d2.metadata with tags := d2.metadata.tags.insertionSort defaultSort } }

/-- `isArchiveLane` (parser source lines 232-240): a heading is the archive
heading iff its content text equals the localized `t('Archive')` string and
its immediately preceding sibling (`getPrevSibling`, modelled from the spec
as the directly preceding block) is a thematic break.  The `toString(child)`
text of the heading is its stored content string. -/
def isArchiveLane (env : Env) (prev : Option Block) (content : String) : Bool :=
  if content ≠ env.tArchive then false
  else
    match prev with
    | some Block.thematicBreak => true
    | _ => false

/-- Modelled from the spec (section 4.1, `firstNextOfType`) applied with the
callback of `astToUnhydratedBoard` lines 264-281: scan the blocks after the
heading for the first list, stopping at a heading or a `%% kanban:settings`
paragraph; a paragraph equal to the localized `t('Complete')` string flips
the `shouldMarkItemsComplete` flag (a side effect that survives even when no
list is found) and scanning continues. -/
def findListAfter (env : Env) : List Block → Option (List TaskItem) × Bool
  | [] => (none, false)
  | b :: rest =>
    match b with
    | .list items => (some items, false)
    | .heading _ _ => (none, false)
    | .paragraph txt =>
      if strBeginsWith txt "%% kanban:settings" then (none, false)
      else if txt = env.tComplete then ((findListAfter env rest).1, true)
      else findListAfter env rest
    | _ => findListAfter env rest

/-- Convert the task items of a list block through `listItemToItemData`,
threading the fresh-id counter (`generateInstanceId` modelled as a counter).
`none` propagates a per-item decompose failure (nothing catches it inside
`astToUnhydratedBoard`). -/
def itemsFromList (env : Env) (md : String) : Nat → List TaskItem → Option (List Item × Nat)
  | nextId, [] => some ([], nextId)
  | nextId, ti :: rest => do
    let d ← listItemToItemData env md ti
    let (its, n') ← itemsFromList env md (nextId + 1) rest
    some (⟨nextId, d⟩ :: its, n')

/-- One stack entry of the board assembler: the lane under construction.
The TS code mutates `lane.children` in place; here the already-parsed item
children and the nested lanes appended later are kept separately and joined
on finalization (items first, then nested lanes, exactly the append order of
the mutation-based code). -/
structure AsmEntry where
  id : Nat
  data : LaneData
  items : List Item
  nested : List Lane
  level : Nat

/-- Close a stack entry into a `Lane` value: the children are the item
children followed by the nested lanes, in order. -/
def finalizeLane (e : AsmEntry) : Lane :=
  Lane.mk e.id e.data (e.items.map LaneChild.item ++ e.nested.map LaneChild.lane)

/-- Attach an optional already-finalized lane as the last nested child of a
stack entry. -/
def attachOpt (acc : Option Lane) (e : AsmEntry) : AsmEntry :=
  match acc with
  | none => e
  | some l => { e with nested := e.nested ++ [l] }

/-- Fold a popped stack segment (top entry first) into a single finalized
lane: each popped entry receives the lane collapsed so far as its last
nested child.  This is the pure counterpart of the TS pop loop, where each
popped lane had already been attached to the entry below it by mutation at
creation time. -/
def collapse : Option Lane → List AsmEntry → Option Lane
  | acc, [] => acc
  | acc, e :: rest => collapse (some (finalizeLane (attachOpt acc e))) rest

/-- The stack pop of `astToUnhydratedBoard` lines 320-339: pop every entry
with `level >= newLevel` (the maximal such prefix, since the while loop
re-tests the new top each round).  The collapsed lane is attached to the new
stack top, or appended to the top-level lanes when the stack empties — the
pure rendering of the creation-time `lanes.push` / `parent.children.push`
mutations, equivalent because the entry below a stack entry never changes
while that entry is on the stack. -/
def popGE (level : Nat) (lanes : List Lane) (stack : List AsmEntry) :
    List Lane × List AsmEntry :=
  let popped := stack.takeWhile (fun e => decide (level ≤ e.level))
  let rest := stack.dropWhile (fun e => decide (level ≤ e.level))
  match collapse none popped with
  | none => (lanes, rest)
  | some l =>
    match rest with
    | [] => (lanes ++ [l], [])
    | p :: rs => (lanes, { p with nested := p.nested ++ [l] } :: rs)

/-- The assembler state threaded through the block walk. -/
structure AsmState where
  lanes : List Lane
  archive : List Item
  stack : List AsmEntry
  nextId : Nat

/-- Processing of one heading block (`astToUnhydratedBoard` lines 256-340):
archive headings followed by a list short-circuit into the archive;
otherwise a lane is created at `level := depth || 1`, the stack is popped,
the parent back-reference is taken from the resulting stack top, and the new
entry is pushed. -/
def processHeading (env : Env) (md : String) (prev : Option Block) (rest : List Block)
    (depth : Nat) (content : String) (s : AsmState) : Option AsmState :=
  let isArchive := isArchiveLane env prev content
  let listAndFlag := findListAfter env rest
  let level := if depth = 0 then 1 else depth
  match isArchive, listAndFlag.1 with
  | true, some items => do
    let (archItems, n') ← itemsFromList env md s.nextId items
    some { s with archive := s.archive ++ archItems, nextId := n' }
  | _, _ => do
    let (laneItems, n') ←
      match listAndFlag.1 with
      | some items => itemsFromList env md s.nextId items
      | none => some ([], s.nextId)
    let laneId := n'
    let lanesAndStack := popGE level s.lanes s.stack
    let parentId := lanesAndStack.2.head?.map AsmEntry.id
    let pt := env.parseLaneTitle content
    let data : LaneData := {
      title := pt.1, maxItems := pt.2,
      shouldMarkItemsComplete := listAndFlag.2,
      level := some level, isCollapsed := false, parentId := parentId }
    some { lanes := lanesAndStack.1, archive := s.archive,
           stack := { id := laneId, data := data, items := laneItems, nested := [],
                      level := level } :: lanesAndStack.2,
           nextId := n' + 1 }

/-- The block walk of `astToUnhydratedBoard` (the `root.children.forEach`),
carrying the previous sibling for the archive check. -/
def asmGo (env : Env) (md : String) : Option Block → List Block → AsmState → Option AsmState
  | _, [], s => some s
  | prev, b :: rest, s => do
    let s' ←
      match b with
      | .heading depth content => processHeading env md prev rest depth content s
      | _ => some s
    asmGo env md (some b) rest s'

/-- `astToUnhydratedBoard` (parser source lines 242-355).  The final
`popGE 0` flushes the remaining stack — the pure counterpart of the fact
that in the TS code every lane was already reachable from `lanes` through
creation-time mutation. -/
def astToUnhydratedBoard (env : Env) (settings frontmatter : String) (blocks : List Block)
    (md : String) : Option Board := do
  let s ← asmGo env md none blocks { lanes := [], archive := [], stack := [], nextId := 0 }
  let lanesAndStack := popGE 0 s.lanes s.stack
  some { id := env.filePath, children := lanesAndStack.1,
         data := { settings := settings, frontmatter := frontmatter, archive := s.archive,
                   isSearching := false, errors := [] } }

/-- `updateItemContent` (parser source lines 357-375): rebuild one item's
data from its new content.  The only `try`/`catch` is around `hydrateItem`,
so a decompose failure propagates (`none`); `hydrateItem` itself is the
opaque total `Env.hydrateItem`.  The item id is preserved. -/
def updateItemContent (env : Env) (oldItem : Item) (newContent : String) : Option Item :=
  let md := "- [" ++ oldItem.data.checkChar ++ "] "
    ++ env.addBlockId (env.indentNewLines newContent) oldItem.data.blockId
  let ast := env.parseFragment md
  match ast.head? with
  | some (.list (ti :: _)) => do
    let d ← listItemToItemData env md ti
    some { oldItem with data := env.hydrateItem d }
  | _ => none

/-- The per-child map of `reparseBoard` (lines 411-417): items are rebuilt
from their `titleRaw`, nested lanes are returned unchanged ("Only reparse
items, not nested lanes"). -/
def reparseChild (env : Env) : LaneChild → Option LaneChild
  | .item i => (updateItemContent env i i.data.titleRaw).map LaneChild.item
  | .lane l => some (.lane l)

/-- A map over a list whose per-element function can throw: the thrown
exception (`none`) propagates, as it does through `Array.map` callbacks in
JavaScript. -/
def optionMapM {α β : Type} (f : α → Option β) : List α → Option (List β)
  | [] => some []
  | a :: rest => do
    let b ← f a
    let bs ← optionMapM f rest
    some (b :: bs)

/-- The per-lane update of `reparseBoard` (lines 408-420): rebuild the
lane's direct children through `reparseChild`. -/
def reparseLane (env : Env) : Lane → Option Lane
  | Lane.mk i d cs => do
    let cs' ← optionMapM (reparseChild env) cs
    some (Lane.mk i d cs')

/-- `reparseBoard` (parser source lines 404-427): map over the top-level
lanes, rebuilding each lane's direct item children.  The single surrounding
`try`/`catch` reports and rethrows, so any per-item failure aborts the whole
call (`none`). -/
def reparseBoard (env : Env) (board : Board) : Option Board := do
  let newChildren ← optionMapM (reparseLane env) board.children
  some { board with children := newChildren }

/-- `itemToMd` (parser source lines 429-431). -/
def itemToMd (env : Env) (item : Item) : String :=
  "- [" ++ item.data.checkChar ++ "] "
    ++ env.addBlockId (env.indentNewLines item.data.titleRaw) item.data.blockId

/-- JS `Array.join('\n')`. -/
def joinWith (sep : String) : List String → String
  | [] => ""
  | [x] => x
  | x :: rest => x ++ sep ++ joinWith sep rest

mutual
/-- `laneToMd` (parser source lines 433-460): heading line with
`'#'.repeat(max 1 (level + 1))` markers where `level = lane.data.level || 1`,
a blank line, the complete marker when `shouldMarkItemsComplete`, each child
in order (items via `itemToMd`, nested lanes recursively), then three
trailing blank line entries, joined with newlines. -/
def laneToMd (env : Env) : Lane → String
  | Lane.mk _ d cs =>
    let level := match d.level with | some l => if l = 0 then 1 else l | none => 1
    let headingMarkers := String.mk (List.replicate (max 1 (level + 1)) '#')
    let lines : List String :=
      [headingMarkers ++ " " ++ env.replaceNewLines (env.laneTitleWithMaxItems d.title d.maxItems),
        ""]
      ++ (if d.shouldMarkItemsComplete then [env.completeString] else [])
      ++ childLines env cs
      ++ ["", "", ""]
    joinWith "\n" lines

/-- The `lane.children.forEach` of `laneToMd`: one pushed line per child. -/
def childLines (env : Env) : List LaneChild → List String
  | [] => []
  | .item i :: rest => itemToMd env i :: childLines env rest
  | .lane l :: rest => laneToMd env l :: childLines env rest
end

/-- `archiveToMd` (parser source lines 462-474). -/
def archiveToMd (env : Env) (archive : List Item) : String :=
  if archive.length ≠ 0 then
    joinWith "\n" ([env.archiveString, "", "## " ++ env.tArchive, ""]
      ++ archive.map (itemToMd env))
  else ""

/-- `boardToMd` (parser source lines 476-484): front-matter block, the
top-level lanes folded left with string concatenation, the archive block,
then the settings codeblock. -/
def boardToMd (env : Env) (board : Board) : String :=
  let lanes := board.children.foldl (fun md lane => md ++ laneToMd env lane) ""
  let frontmatter :=
    joinWith "\n" ["---", "", env.stringifyYaml board.data.frontmatter, "---", "", ""]
  frontmatter ++ lanes ++ archiveToMd env board.data.archive ++ env.settingsToCodeblock

/-- The item update applied by `addItems` in src/components/Lane/Lane.tsx
(lines 233-250): every added item's `checked` is set to the lane's
`shouldMarkItemsComplete` and its `checkChar` to the configured done
character (`getTaskStatusDone()`, an external collaborator passed here as
`taskStatusDone`) when that flag is set, else to a single space. -/
def addItemsUpdate (shouldMarkItemsComplete : Bool) (taskStatusDone : String)
    (items : List Item) : List Item :=
  items.map fun item =>
    { item with data := { item.data with
        checked := some shouldMarkItemsComplete,
        checkChar := if shouldMarkItemsComplete then taskStatusDone else " " } }

/-- Whether both lanes carry heading levels and the first is strictly below
the second (the spec's `L.level > P.level` read off the stored data). -/
def levelsLt (pd cd : LaneData) : Bool :=
  match pd.level, cd.level with
  | some pl, some cl => decide (pl < cl)
  | _, _ => false

mutual
/-- Hierarchy invariant checker for one lane: every nested lane child has a
strictly greater stored level, a parent back-reference equal to this lane's
id, and recursively satisfies the invariant. -/
def laneInvB : Lane → Bool
  | Lane.mk i d cs => childrenInvB i d cs

/-- Hierarchy invariant checker over a child list against the owning lane's
id and data. -/
def childrenInvB (pid : Nat) (pd : LaneData) : List LaneChild → Bool
  | [] => true
  | .item _ :: rest => childrenInvB pid pd rest
  | .lane l :: rest =>
    (levelsLt pd (laneDataOf l) && (laneDataOf l).parentId == some pid && laneInvB l)
      && childrenInvB pid pd rest
end

/-- Hierarchy invariant checker for a whole board: every top-level lane has
no parent back-reference and satisfies the recursive lane invariant. -/
def boardInvB (b : Board) : Bool :=
  b.children.all (fun l => ((laneDataOf l).parentId == none) && laneInvB l)

/-- Modelled from the spec (sections 4.5, 4.6, 6): the external markdown
parser assigns a heading node a `depth` equal to the number of leading `#`
markers of its line. -/
def headingDepthOfLine (line : List Char) : Nat := (line.takeWhile (· = '#')).length

/-- Modelled from the spec (section 4.1): the heading content is the line
text after the marker run and the separating spaces. -/
def headingContentOfLine (line : List Char) : String :=
  String.mk ((line.dropWhile (· = '#')).dropWhile (· = ' '))

/-- Split a character list into lines at newline characters. -/
def splitLinesChars : List Char → List (List Char)
  | [] => [[]]
  | c :: rest =>
    let r := splitLinesChars rest
    if c = '\n' then [] :: r
    else
      match r with
      | [] => [[c]]
      | l :: ls => (c :: l) :: ls

/-- Modelled from the spec (section 6 persisted layout): a minimal reader
turning a document without lists back into top-level blocks — heading lines
by marker count, horizontal rules, blank lines skipped, anything else a
paragraph.  Used only to re-parse the serializer's output in concrete
round-trip theorems. -/
def linesToBlocks : List (List Char) → List Block
  | [] => []
  | line :: rest =>
    if line = [] then linesToBlocks rest
    else if line = ['-', '-', '-'] then Block.thematicBreak :: linesToBlocks rest
    else if line.head? = some '#' then
      Block.heading (headingDepthOfLine line) (headingContentOfLine line) :: linesToBlocks rest
    else Block.paragraph (String.mk line) :: linesToBlocks rest

/-- Re-read a serialized document as top-level blocks (modelled parser). -/
def mdToBlocksModel (md : String) : List Block := splitLinesChars md.toList |> linesToBlocks

/-- The lane titles of a board's top-level lanes. -/
def laneTitles (b : Board) : List String := b.children.map (fun l => (laneDataOf l).title)

/-- The stored heading levels of a board's top-level lanes. -/
def laneLevels (b : Board) : List (Option Nat) := b.children.map (fun l => (laneDataOf l).level)

mutual
/-- The metadata visit never touches the `checkChar`, `checked` or
`titleRaw` fields fixed at item-data initialization. -/
theorem metaVisitNode_pres (env : Env) (ibStart : Nat) (pcs : List INode) (st : MetaState)
    (n : INode) :
    (metaVisitNode env ibStart pcs st n).itemData.checkChar = st.itemData.checkChar ∧
    (metaVisitNode env ibStart pcs st n).itemData.checked = st.itemData.checked ∧
    (metaVisitNode env ibStart pcs st n).itemData.titleRaw = st.itemData.titleRaw := by
  cases n with
  | text v s e => exact ⟨rfl, rfl, rfl⟩
  | hashtag v s e =>
    cases hha : hashtagAllowed pcs <;> simp [metaVisitNode, hha]
  | inlineCode v s e => exact ⟨rfl, rfl, rfl⟩
  | code v s e => exact ⟨rfl, rfl, rfl⟩
  | image a s e => exact ⟨rfl, rfl, rfl⟩
  | date d s e => exact ⟨rfl, rfl, rfl⟩
  | dateLink d s e => exact ⟨rfl, rfl, rfl⟩
  | time t s e => exact ⟨rfl, rfl, rfl⟩
  | blockid v s e => exact ⟨rfl, rfl, rfl⟩
  | wikilink v acc fm fmo s e => exact ⟨rfl, rfl, rfl⟩
  | embedWikilink v acc s e => exact ⟨rfl, rfl, rfl⟩
  | embedLink acc s e => exact ⟨rfl, rfl, rfl⟩
  | link accOpt fm fmo cs s e =>
    cases accOpt with
    | none => exact metaVisitList_pres env ibStart cs st cs
    | some acc =>
      exact metaVisitList_pres env ibStart cs
        { st with itemData :=
            { st.itemData with metadata :=
                { st.itemData.metadata with
                    fileAccessor := some acc,
                    fileMetadata := fm,
                    fileMetadataOrder := fmo } } } cs
  | paragraph cs s e => exact metaVisitList_pres env ibStart cs st cs
  | other cs s e => exact metaVisitList_pres env ibStart cs st cs

/-- List version of `metaVisitNode_pres`. -/
theorem metaVisitList_pres (env : Env) (ibStart : Nat) (pcs : List INode) (st : MetaState)
    (l : List INode) :
    (metaVisitList env ibStart pcs st l).itemData.checkChar = st.itemData.checkChar ∧
    (metaVisitList env ibStart pcs st l).itemData.checked = st.itemData.checked ∧
    (metaVisitList env ibStart pcs st l).itemData.titleRaw = st.itemData.titleRaw := by
  cases l with
  | nil => exact ⟨rfl, rfl, rfl⟩
  | cons n rest =>
    have h1 := metaVisitList_pres env ibStart pcs (metaVisitNode env ibStart pcs st n) rest
    have h2 := metaVisitNode_pres env ibStart pcs st n
    exact ⟨h1.1.trans h2.1, h1.2.1.trans h2.2.1, h1.2.2.trans h2.2.2⟩
end

/-- The `checkChar` stored by `listItemToItemData` is exactly the
initialization expression of line 112: the node's `checkChar` when checked
(empty string and absent both coerced to a space), a space otherwise. -/
theorem listItemToItemData_checkChar_eq (env : Env) (md : String) (item : TaskItem)
    (d : ItemData) (h : listItemToItemData env md item = some d) :
    d.checkChar =
      (if item.checked = some true then
        match item.checkChar with
        | some c => if c = "" then " " else c
        | none => " "
      else " ") := by
  cases hc : item.children with
  | nil => simp [listItemToItemData, hc] at h
  | cons c0 crest =>
    simp only [listItemToItemData, hc, Option.some.injEq] at h
    subst h
    simp only [apply_ite ItemData.checkChar, ite_self]
    rw [(metaVisitList_pres env _ (c0 :: crest) _ (c0 :: crest)).1]

/-- C10: for every list item whose `checked` flag is false or absent,
`listItemToItemData` returns `checkChar = " "`, discarding whatever marker
character appeared in the source; and for a checked item whose node carries
no `checkChar`, the returned `checkChar` is also a single space. -/
theorem c10_checkChar (env : Env) (md : String) (item : TaskItem) (d : ItemData)
    (h : listItemToItemData env md item = some d) :
    (item.checked ≠ some true → d.checkChar = " ") ∧
    (item.checked = some true → item.checkChar = none → d.checkChar = " ") := by
  have he := listItemToItemData_checkChar_eq env md item d h
  constructor
  · intro hne
    rw [he, if_neg hne]
  · intro hck hnone
    rw [he, if_pos hck, hnone]

def w10Env : Env := {}

def w10Md : String := "- [?] q"

/-- A concrete unchecked item whose source marker character is `?`. -/
def w10Item : TaskItem :=
  { children := [INode.paragraph [INode.text "q" 6 7] 6 7],
    checked := some false, checkChar := some "?" }

/-- Witness for C10: the `?` marker of the unchecked concrete item is
discarded in favour of a single space. -/
theorem c10_witness :
    ∃ d, listItemToItemData w10Env w10Md w10Item = some d ∧ d.checkChar = " " := by
  refine ⟨_, rfl, ?_⟩
  exact (c10_checkChar w10Env w10Md w10Item _ rfl).1 (by decide)

/-- C8: for every list item, the tags array of the returned `ItemData` is
sorted ascending by the deterministic default comparator `defaultSort`,
regardless of the order of the hashtag nodes in the source. -/
theorem c8_tags_sorted (env : Env) (md : String) (item : TaskItem) (d : ItemData)
    (h : listItemToItemData env md item = some d) :
    List.Sorted defaultSort d.metadata.tags := by
  cases hc : item.children with
  | nil => simp [listItemToItemData, hc] at h
  | cons c0 crest =>
    simp only [listItemToItemData, hc, Option.some.injEq] at h
    subst h
    exact List.sorted_insertionSort defaultSort _

def w8Env : Env := {}

def w8Md : String := "- [ ] b #z #a"

/-- A concrete item whose hashtags appear in descending source order. -/
def w8Item : TaskItem :=
  { children := [INode.paragraph
      [INode.text "b " 6 8, INode.hashtag "z" 8 10, INode.text " " 10 11,
       INode.hashtag "a" 11 13] 6 13],
    checked := some false, checkChar := none }

/-- Witness for C8: the out-of-order source tags `#z #a` come back as the
sorted list `["#a", "#z"]`. -/
theorem c8_witness :
    ∃ d, listItemToItemData w8Env w8Md w8Item = some d ∧
      d.metadata.tags = ["#a", "#z"] ∧ List.Sorted defaultSort d.metadata.tags := by
  refine ⟨_, rfl, by decide, ?_⟩
  exact c8_tags_sorted w8Env w8Md w8Item _ rfl

/-- C9: every item added through the lane's `addItems` path has `checked`
set to the lane's `shouldMarkItemsComplete` value and `checkChar` set to the
configured done character exactly when that flag is true, else to a single
space, regardless of the item's previous state. -/
theorem c9_addItems_update (flag : Bool) (done : String) (items : List Item) :
    ∀ it ∈ addItemsUpdate flag done items,
      it.data.checked = some flag ∧ it.data.checkChar = (if flag then done else " ") := by
  intro it hm
  rw [addItemsUpdate, List.mem_map] at hm
  obtain ⟨a, _, rfl⟩ := hm
  exact ⟨rfl, rfl⟩

/-- Witness for C9 at a concrete previously-unchecked item added to a
completed lane with done character `"x"`. -/
theorem c9_witness :
    ∃ it, it ∈ addItemsUpdate true "x" [⟨0, {}⟩] ∧
      it.data.checked = some true ∧ it.data.checkChar = "x" := by
  have hm : (⟨0, { checked := some true, checkChar := "x" }⟩ : Item) ∈
      addItemsUpdate true "x" [⟨0, {}⟩] := by decide
  refine ⟨_, hm, ?_⟩
  exact c9_addItems_update true "x" [⟨0, {}⟩] _ hm

/-- A fold that appends each element satisfying the (pointwise-decided)
condition equals append-of-filter. -/
theorem foldl_pushIf_eq_filter {α : Type} (p : α → Bool) (l : List α) :
    ∀ init : List α,
      l.foldl (fun acc c => if p c = true then acc ++ [c] else acc) init
        = init ++ l.filter p := by
  induction l with
  | nil => intro init; simp
  | cons x rest ih =>
    intro init
    by_cases hx : p x = true <;> simp [hx, ih]

/-- The two-step retention test of `retainedFields` coincides with the
single disjunctive condition. -/
theorem retainedFields_eq_filter (env : Env) (fle : Int) (fields : List InlineField) :
    retainedFields env fle fields = fields.filter
      (fun f => !(env.taskFields.contains f.key) || decide (fle ≤ 0)
        || decide ((f.endPos : Int) < fle)) := by
  rw [retainedFields]
  have hstep : (fun (acc : List InlineField) (curr : InlineField) =>
      if ¬ (env.taskFields.contains curr.key = true) then acc ++ [curr]
      else if fle ≤ 0 ∨ (curr.endPos : Int) < fle then acc ++ [curr]
      else acc) = (fun acc curr =>
      if (!(env.taskFields.contains curr.key) || decide (fle ≤ 0)
          || decide ((curr.endPos : Int) < fle)) = true then acc ++ [curr]
      else acc) := by
    funext acc curr
    by_cases h1 : env.taskFields.contains curr.key = true <;>
      by_cases h2 : fle ≤ 0 <;>
        by_cases h3 : (curr.endPos : Int) < fle <;>
          simp [h1, h2, h3]
  rw [hstep, foldl_pushIf_eq_filter]
  simp

/-- C6 (amended): an extracted inline field is retained in
`metadata.inlineMetadata` exactly when its key is not in the reserved
task-field set, or the first line break of the title is absent or at offset
0 (the code tests `firstLineEnd <= 0`, where `indexOf` yields `-1` for
"absent"), or the field's end offset is strictly before the offset of the
first line break; order is preserved (a filter). -/
theorem c6_retained_iff (env : Env) (title : String) (fields : List InlineField) :
    retainedFields env (firstLineEndOf title) fields = fields.filter
      (fun f => !(env.taskFields.contains f.key) || decide (firstLineEndOf title ≤ 0)
        || decide ((f.endPos : Int) < firstLineEndOf title)) :=
  retainedFields_eq_filter env (firstLineEndOf title) fields

/-- A title that begins with a line break. -/
def c6Title : String := "\ndue: x"

/-- A reserved-key field lying entirely after that first line break. -/
def c6Field : InlineField := { key := "due", value := "x", start := 1, endPos := 7 }

def c6Md : String := "- [ ] \ndue: x"

/-- A concrete list item whose decomposed title is `c6Title`. -/
def c6Item : TaskItem :=
  { children := [INode.paragraph [INode.text "\ndue: x" 6 13] 6 13], checked := some false }

/-- The environment of the C6 counterexample: the external extractor finds
the reserved `due` field in the multi-line title, as a key/value annotation
matcher does on any line. -/
def c6Env : Env :=
  { extractInlineFields := fun title => if title = "\ndue: x" then [c6Field] else [] }

/-- C6 counterexample: on a decomposed item whose title's first line break
is at offset 0, the code retains a reserved-key field that lies after the
line break in `metadata.inlineMetadata`, although the claim's condition (not
reserved, or no line break exists, or ends before the first line break)
fails for it: the code's actual test is `firstLineEnd <= 0`, not "no line
break exists". -/
theorem c6_counterexample :
    (listItemToItemData c6Env c6Md c6Item).map
        (fun d => (d.title, d.metadata.inlineMetadata))
      = some (c6Title, some [c6Field]) ∧
    retainedFields c6Env (firstLineEndOf c6Title) [c6Field] = [c6Field] ∧
    c6Env.taskFields.contains c6Field.key = true ∧
    c6Title.toList.contains '\n' = true ∧
    ¬ ((c6Field.endPos : Int) < firstLineEndOf c6Title) :=
  ⟨by decide, by decide, by decide, by decide, by decide⟩

/-- An `optionMapM` fails as soon as any element maps to `none`. -/
theorem optionMapM_eq_none_of_mem {α β : Type} (f : α → Option β) (l : List α) (x : α)
    (hx : x ∈ l) (hf : f x = none) : optionMapM f l = none := by
  induction l with
  | nil => cases hx
  | cons a rest ih =>
    rcases List.mem_cons.mp hx with rfl | hx'
    · simp [optionMapM, hf]
    · cases ha : f a with
      | none => simp [optionMapM, ha]
      | some b => simp [optionMapM, ha, ih hx']

/-- A successful `optionMapM` preserves length and maps every position
(`get?` form). -/
theorem optionMapM_get?_spec {α β : Type} (f : α → Option β) (l : List α) (l' : List β)
    (h : optionMapM f l = some l') :
    l'.length = l.length ∧ ∀ k, l'.get? k = (l.get? k).bind f := by
  induction l generalizing l' with
  | nil =>
    simp only [optionMapM, Option.some.injEq] at h
    subst h
    simp
  | cons a rest ih =>
    cases ha : f a with
    | none => simp [optionMapM, ha] at h
    | some b =>
      cases hrest : optionMapM f rest with
      | none => simp [optionMapM, ha, hrest] at h
      | some bs =>
        simp [optionMapM, ha, hrest] at h
        subst h
        obtain ⟨hlen, hpos⟩ := ih bs hrest
        refine ⟨by simp [hlen], ?_⟩
        intro k
        cases k with
        | zero => simp [ha]
        | succ k => simpa using hpos k

/-- C2 (amended): during `reparseBoard`, a failure while recomposing one
item is NOT caught per item: it propagates through the two maps to the
single surrounding `try`/`catch`, which records the error and rethrows, so
the entire reparse aborts and no board is returned. -/
theorem c2_reparse_failure_aborts (env : Env) (board : Board)
    (h : ∃ lane ∈ board.children, ∃ c ∈ laneChildrenOf lane, ∃ i,
      c = LaneChild.item i ∧ updateItemContent env i i.data.titleRaw = none) :
    reparseBoard env board = none := by
  obtain ⟨lane, hlane, c, hc, i, rfl, hfail⟩ := h
  rw [reparseBoard]
  have houter : optionMapM (reparseLane env) board.children = none := by
    apply optionMapM_eq_none_of_mem _ _ lane hlane
    cases lane with
    | mk li ld lcs =>
      have hinner : optionMapM (reparseChild env) lcs = none := by
        apply optionMapM_eq_none_of_mem _ _ _ hc
        simp [reparseChild, hfail]
      simp [reparseLane, hinner]
  simp [houter]

/-- The environment of the C2 counterexample: the fragment parser yields a
malformed list item (no content children) for the bad item's content and a
well-formed one otherwise. -/
def c2Env : Env :=
  { parseFragment := fun md =>
      if strBeginsWith md "- [ ] bad" then [Block.list [{ children := [] }]]
      else [Block.list [{ children := [INode.paragraph [INode.text "g" 6 7] 6 7] }]] }

/-- The malformed item of the C2 counterexample. -/
def c2BadItem : Item := ⟨0, { titleRaw := "bad", checkChar := " " }⟩

/-- A healthy sibling item of the C2 counterexample. -/
def c2GoodItem : Item := ⟨1, { titleRaw := "good", checkChar := " " }⟩

/-- The board of the C2 counterexample: one lane holding the malformed item
and a healthy one. -/
def c2Board : Board :=
  { id := "b", children := [Lane.mk 2 {} [.item c2BadItem, .item c2GoodItem]], data := {} }

/-- C2 counterexample: with one malformed item (its parsed list item node
has no content children) the bulk reparse returns no board at all — the
original item is not retained at its position and the healthy sibling is not
preserved either, contradicting the claimed per-item catch.  The second
conjunct shows the sibling on its own would reparse fine. -/
theorem c2_counterexample :
    reparseBoard c2Env c2Board = none ∧
    (updateItemContent c2Env c2GoodItem c2GoodItem.data.titleRaw).isSome = true :=
  ⟨rfl, rfl⟩

/-- Witness for C2 (amended) at the concrete malformed board. -/
theorem c2_witness : reparseBoard c2Env c2Board = none :=
  c2_reparse_failure_aborts c2Env c2Board
    ⟨Lane.mk 2 {} [.item c2BadItem, .item c2GoodItem], List.mem_singleton.mpr rfl,
      .item c2BadItem, List.mem_cons_self _ _, c2BadItem, rfl, rfl⟩

/-- C3 (amended): `reparseBoard` renormalizes exactly the items that are
direct children of top-level lanes.  Each lane keeps its id and data; at
each child position the result is `reparseChild`, which sends an item child
to its `updateItemContent` renormalization but returns a lane child — and
therefore every item nested inside it — completely unchanged. -/
theorem c3_reparse_top_level_only (env : Env) (board : Board) (board' : Board)
    (h : reparseBoard env board = some board') :
    (∀ l : Lane, reparseChild env (.lane l) = some (.lane l)) ∧
    (∀ i : Item, reparseChild env (.item i)
      = (updateItemContent env i i.data.titleRaw).map LaneChild.item) ∧
    board'.children.length = board.children.length ∧
    ∀ k laneO, board.children.get? k = some laneO →
      ∃ lane', board'.children.get? k = some lane' ∧
        laneIdOf lane' = laneIdOf laneO ∧ laneDataOf lane' = laneDataOf laneO ∧
        (laneChildrenOf lane').length = (laneChildrenOf laneO).length ∧
        ∀ j c, (laneChildrenOf laneO).get? j = some c →
          ∃ c', (laneChildrenOf lane').get? j = some c' ∧ reparseChild env c = some c' := by
  refine ⟨fun l => rfl, fun i => rfl, ?_⟩
  simp only [reparseBoard, Option.bind_eq_bind, Option.bind_eq_some, Option.some.injEq] at h
  obtain ⟨cs', hm, hb⟩ := h
  have hbc : board'.children = cs' := by rw [← hb]
  obtain ⟨hlen, hpos⟩ := optionMapM_get?_spec _ _ _ hm
  rw [hbc, hlen]
  refine ⟨rfl, ?_⟩
  intro k laneO hk
  have h1 : cs'.get? k = reparseLane env laneO := by rw [hpos k, hk]; rfl
  cases hl : laneO with
  | mk li ld lcs =>
    rw [hl] at h1
    cases hm2 : optionMapM (reparseChild env) lcs with
    | none =>
      exfalso
      rw [reparseLane, hm2] at h1
      have hklt : k < board.children.length := (List.get?_eq_some.mp hk).1
      have hnone : cs'.get? k = none := h1
      rw [List.get?_eq_get (by omega : k < cs'.length)] at hnone
      cases hnone
    | some lcs' =>
      obtain ⟨hlen2, hpos2⟩ := optionMapM_get?_spec _ _ _ hm2
      rw [reparseLane, hm2] at h1
      have h1' : cs'.get? k = some (Lane.mk li ld lcs') := h1
      refine ⟨Lane.mk li ld lcs', h1', rfl, rfl, by simpa using hlen2, ?_⟩
      intro j c hj
      have h2 : lcs'.get? j = reparseChild env c := by
        have := hpos2 j
        simp only [laneChildrenOf] at hj
        rw [hj] at this
        simpa using this
      have hjlt : j < lcs.length := by
        have := (List.get?_eq_some.mp (by simpa [laneChildrenOf] using hj)).1
        exact this
      have hjlt' : j < lcs'.length := by omega
      refine ⟨lcs'.get ⟨j, hjlt'⟩, ?_, ?_⟩
      · simp [laneChildrenOf, List.get?_eq_get hjlt']
      · rw [← h2, List.get?_eq_get hjlt']

/-- The environment of the C3 counterexample and witness: a fragment parser
returning, for any input, a one-item list whose paragraph covers offsets
6-7, so renormalizing an item with a one-character `titleRaw` keeps that
`titleRaw` but rewrites the search text to the parsed text node's value. -/
def c3Env : Env :=
  { parseFragment := fun _ =>
      [Block.list [{ children := [INode.paragraph [INode.text "r" 6 7] 6 7] }]] }

/-- The item inside the nested lane of the C3 board. -/
def c3NestedItem : Item := ⟨6, { titleRaw := "z", checkChar := " " }⟩

/-- The nested (non-top-level) lane of the C3 board. -/
def c3Nested : Lane := Lane.mk 7 {} [.item c3NestedItem]

/-- The item that is a direct child of the top-level lane of the C3 board. -/
def c3TopItem : Item := ⟨5, { titleRaw := "q", checkChar := " " }⟩

/-- The C3 board: one top-level lane holding a direct item and a nested lane
with its own item. -/
def c3Board : Board :=
  { id := "b", children := [Lane.mk 8 {} [.item c3TopItem, .lane c3Nested]], data := {} }

/-- C3 counterexample: bulk reparse succeeds on the concrete board, yet the
item inside the nested lane comes back as the original record (the whole
nested lane is returned unchanged), although renormalizing that item would
have produced a different record — contradicting the claim that every item
reachable anywhere in the lane tree is replaced by its `updateItemContent`
renormalization. -/
theorem c3_counterexample :
    (∃ b', reparseBoard c3Env c3Board = some b' ∧
      ((b'.children.get? 0).map (fun l => (laneChildrenOf l).get? 1))
        = some (some (.lane c3Nested))) ∧
    (∃ i', updateItemContent c3Env c3NestedItem c3NestedItem.data.titleRaw = some i' ∧
      i' ≠ c3NestedItem) :=
  ⟨⟨_, rfl, rfl⟩, ⟨_, rfl, by decide⟩⟩

/-- Witness for C3 (amended) at the concrete board with a nested lane. -/
theorem c3_witness :
    ∃ b', reparseBoard c3Env c3Board = some b' ∧
      b'.children.length = c3Board.children.length := by
  refine ⟨_, rfl, ?_⟩
  exact (c3_reparse_top_level_only c3Env c3Board _ rfl).2.2.1

/-- C5 (amended): a heading whose content equals the localized Archive
string and whose immediately preceding sibling is a thematic break is
treated as the archive section only when a following list exists: the list's
items are appended to the archive and neither the lane list nor the stack
changes (the heading never becomes a lane).  When no following list exists —
or when either archive condition fails — the heading behaves exactly like an
ordinary (non-archive) lane heading: the archive is untouched and a new lane
entry is created and pushed. -/
theorem c5_archive_step (env : Env) (md : String) (prev : Option Block) (rest : List Block)
    (depth : Nat) (content : String) (s : AsmState) :
    (∀ items its n',
      isArchiveLane env prev content = true →
      (findListAfter env rest).1 = some items →
      itemsFromList env md s.nextId items = some (its, n') →
      processHeading env md prev rest depth content s
        = some { s with archive := s.archive ++ its, nextId := n' }) ∧
    (isArchiveLane env prev content = true →
      (findListAfter env rest).1 = none →
      processHeading env md prev rest depth content s
        = some { lanes := (popGE (if depth = 0 then 1 else depth) s.lanes s.stack).1,
                 archive := s.archive,
                 stack := { id := s.nextId,
                            data := { title := (env.parseLaneTitle content).1,
                                      maxItems := (env.parseLaneTitle content).2,
                                      shouldMarkItemsComplete := (findListAfter env rest).2,
                                      level := some (if depth = 0 then 1 else depth),
                                      isCollapsed := false,
                                      parentId :=
                                        ((popGE (if depth = 0 then 1 else depth) s.lanes
                                          s.stack).2.head?).map AsmEntry.id },
                            items := [], nested := [],
                            level := if depth = 0 then 1 else depth }
                   :: (popGE (if depth = 0 then 1 else depth) s.lanes s.stack).2,
                 nextId := s.nextId + 1 }) ∧
    (isArchiveLane env prev content = false →
      processHeading env md prev rest depth content s
        = processHeading env md none rest depth content s) := by
  refine ⟨?_, ?_, ?_⟩
  · intro items its n' harch hlist hitems
    simp [processHeading, harch, hlist, hitems]
  · intro harch hlist
    simp [processHeading, harch, hlist]
  · intro harch
    have hnone : isArchiveLane env none content = false := by
      simp [isArchiveLane]
    rw [processHeading, processHeading, harch, hnone]

/-- The blocks of the C5 counterexample: a horizontal rule directly followed
by an Archive heading with no following list. -/
def c5Blocks : List Block := [Block.thematicBreak, Block.heading 2 "Archive"]

/-- C5 counterexample: an archive-titled heading directly preceded by a
thematic break but with no following list DOES become a lane (and
contributes nothing to the archive), contradicting the claim's "for every
such heading, regardless of whether a following list exists". -/
theorem c5_counterexample :
    (astToUnhydratedBoard {} "s" "f" c5Blocks "md").map
      (fun b => (laneTitles b, b.data.archive.length)) = some (["Archive"], 0) := rfl

/-- The single list item used by the C5 witness. -/
def w5Item : TaskItem :=
  { children := [INode.paragraph [INode.text "a" 6 7] 6 7], checked := some false }

def w5Md : String := "- [ ] a"

/-- The assembler state the C5 witness starts from. -/
def w5S : AsmState := { lanes := [], archive := [], stack := [], nextId := 0 }

/-- The parsed items of the C5 witness list. -/
def w5Parsed : List Item × Nat :=
  (itemsFromList ({} : Env) w5Md 0 [w5Item]).getD ([], 0)

/-- Witness for C5 (amended): with a following list the archive grows and no
lane is created; without one, a lane entry is pushed and the archive is
untouched. -/
theorem c5_witness :
    (∃ s', processHeading {} w5Md (some Block.thematicBreak) [Block.list [w5Item]] 2 "Archive"
        w5S = some s' ∧ s'.lanes = w5S.lanes ∧ s'.stack = w5S.stack ∧
        s'.archive.length = w5S.archive.length + 1) ∧
    (∃ s', processHeading {} w5Md (some Block.thematicBreak) [] 2 "Archive" w5S = some s' ∧
        s'.archive = w5S.archive ∧ s'.stack.length = w5S.stack.length + 1) := by
  constructor
  · have h := (c5_archive_step ({} : Env) w5Md (some Block.thematicBreak)
      [Block.list [w5Item]] 2 "Archive" w5S).1 [w5Item] w5Parsed.1 w5Parsed.2 rfl rfl rfl
    exact ⟨_, h, rfl, rfl, by decide⟩
  · have h := (c5_archive_step ({} : Env) w5Md (some Block.thematicBreak)
      [] 2 "Archive" w5S).2.1 rfl rfl
    exact ⟨_, h, rfl, rfl⟩

/-- String concatenation of a list (right fold). -/
def strJoin : List String → String
  | [] => ""
  | x :: rest => x ++ strJoin rest

/-- String append is associative. -/
theorem strAppend_assoc (a b c : String) : a ++ b ++ c = a ++ (b ++ c) := by
  cases a with
  | mk xs =>
    cases b with
    | mk ys =>
      cases c with
      | mk zs =>
        show String.mk (xs ++ ys ++ zs) = String.mk (xs ++ (ys ++ zs))
        rw [List.append_assoc]

/-- A left fold that appends the image of each element equals prepending the
accumulator to the joined images. -/
theorem foldl_strAppend_eq_join {α : Type} (f : α → String) (l : List α) :
    ∀ init : String, l.foldl (fun md x => md ++ f x) init = init ++ strJoin (l.map f) := by
  induction l with
  | nil =>
    intro init
    show init = init ++ ""
    cases init with
    | mk xs => show String.mk xs = String.mk (xs ++ []); rw [List.append_nil]
  | cons x rest ih =>
    intro init
    show rest.foldl (fun md x => md ++ f x) (init ++ f x) = init ++ strJoin (f x :: rest.map f)
    rw [ih (init ++ f x)]
    show init ++ f x ++ strJoin (rest.map f) = init ++ (f x ++ strJoin (rest.map f))
    exact strAppend_assoc init (f x) (strJoin (rest.map f))

/-- C7: `laneToMd` emits a heading line whose marker run has exactly
`level + 1` `#` characters (for the data-model levels `1..6`; absent or
zero levels behave as level 1 through the code's `|| 1` default), then a
blank line, then the complete-marker line exactly when
`shouldMarkItemsComplete`, then one entry per child in order (items via
`itemToMd`, nested lanes via recursive `laneToMd`), then three trailing
blank entries, joined with newlines; and `boardToMd` emits the front-matter
block, all top-level lanes in order, the archive block, then the settings
codeblock. -/
theorem c7_serializer_structure (env : Env) (lane : Lane) (l : Nat)
    (hl : (laneDataOf lane).level = some l) (h1 : 1 ≤ l) :
    (laneToMd env lane = joinWith "\n"
      ([String.mk (List.replicate (l + 1) '#') ++ " "
          ++ env.replaceNewLines (env.laneTitleWithMaxItems (laneDataOf lane).title
            (laneDataOf lane).maxItems), ""]
        ++ (if (laneDataOf lane).shouldMarkItemsComplete then [env.completeString] else [])
        ++ childLines env (laneChildrenOf lane)
        ++ ["", "", ""]) ∧
      (String.mk (List.replicate (l + 1) '#')).length = l + 1 ∧
      (List.replicate (l + 1) '#').all (· = '#') = true) ∧
    (∀ board : Board, boardToMd env board =
      joinWith "\n" ["---", "", env.stringifyYaml board.data.frontmatter, "---", "", ""]
        ++ strJoin (board.children.map (laneToMd env))
        ++ archiveToMd env board.data.archive ++ env.settingsToCodeblock) := by
  constructor
  · cases lane with
    | mk i d cs =>
      simp only [laneDataOf, laneChildrenOf] at hl ⊢
      constructor
      · rw [laneToMd, hl]
        have h0 : (if l = 0 then 1 else l) = l := by
          rw [if_neg (by omega)]
        have hmax : max 1 (l + 1) = l + 1 := by omega
        simp [h0, hmax]
      · constructor
        · simp [String.length]
        · simp
  · intro board
    rw [boardToMd, foldl_strAppend_eq_join (laneToMd env) board.children ""]
    have hemp : ("" : String) ++ strJoin (board.children.map (laneToMd env))
        = strJoin (board.children.map (laneToMd env)) := by
      cases hsj : strJoin (board.children.map (laneToMd env)) with
      | mk xs => rfl
    rw [hemp]

/-- The concrete lane of the C7 witness: level 1, no children, flag off. -/
def w7Lane : Lane := Lane.mk 0 { title := "T", level := some 1 } []

/-- Witness for C7: the level-1 lane serializes to a 2-marker heading line
followed by the blank line and the three trailing blank entries. -/
theorem c7_witness : laneToMd {} w7Lane = "## T\n\n\n\n" := by
  have h := (c7_serializer_structure ({} : Env) w7Lane 1 rfl (by decide)).1.1
  rw [h]
  rfl

/-- C1: the round-trip demonstration at a concrete document.  A document
with the single heading `## A` parses to one lane at level 2 (the parser
stores `level = depth`), but `boardToMd` emits `level + 1 = 3` markers (the
serializer's comment says "h2 for level 1"), so re-parsing the serialized
form yields the lane at level 3 — the level grows by one per round trip
instead of matching, violating the spec's lossless round-trip intent. -/
theorem c1_roundtrip_level_bug :
    ∃ b0 b1 : Board,
      astToUnhydratedBoard {} "s" "f" [Block.heading 2 "A"] "" = some b0 ∧
      laneTitles b0 = ["A"] ∧ laneLevels b0 = [some 2] ∧
      mdToBlocksModel (boardToMd {} b0)
        = [Block.thematicBreak, Block.paragraph "f", Block.thematicBreak, Block.heading 3 "A"] ∧
      astToUnhydratedBoard {} "s" "f" (mdToBlocksModel (boardToMd {} b0)) (boardToMd {} b0)
        = some b1 ∧
      laneTitles b1 = ["A"] ∧ laneLevels b1 = [some 3] :=
  ⟨_, _, rfl, rfl, rfl, rfl, rfl, rfl, rfl⟩

/-- The nested-lane children of a stack entry all fit under it: strictly
greater stored level, parent back-reference to the entry's id, and the
recursive invariant. -/
def entryNestedOK (e : AsmEntry) : Prop :=
  ∀ l ∈ e.nested, levelsLt e.data (laneDataOf l) = true ∧
    (laneDataOf l).parentId = some e.id ∧ laneInvB l = true

/-- A well-formed stack entry: the stored data level matches the entry
level, levels start at 1, and the nested lanes fit. -/
def entryOK (e : AsmEntry) : Prop :=
  e.data.level = some e.level ∧ 1 ≤ e.level ∧ entryNestedOK e

/-- The assembler stack invariant: every entry is well formed, entries'
parent back-references point at the entry directly below (none at the
bottom), and levels strictly decrease downward. -/
def stackOK : List AsmEntry → Prop
  | [] => True
  | e :: rest =>
    entryOK e ∧ e.data.parentId = (rest.head?).map AsmEntry.id ∧
    (∀ p ∈ rest.head?, p.level < e.level) ∧ stackOK rest

/-- Finished top-level lanes: no parent back-reference and the recursive
invariant holds. -/
def lanesOK (lanes : List Lane) : Prop :=
  ∀ l ∈ lanes, (laneDataOf l).parentId = none ∧ laneInvB l = true

/-- Where a finalized lane may attach: at top level it must carry no parent
back-reference; under a stack head it must fit that entry. -/
def fitsBelow (l : Lane) : List AsmEntry → Prop
  | [] => (laneDataOf l).parentId = none
  | p :: _ => levelsLt p.data (laneDataOf l) = true ∧ (laneDataOf l).parentId = some p.id

/-- The collapse accumulator invariant. -/
def accFits (acc : Option Lane) (stack : List AsmEntry) : Prop :=
  match acc with
  | none => True
  | some l => laneInvB l = true ∧ fitsBelow l stack

/-- Item children contribute nothing to the hierarchy checker. -/
theorem childrenInvB_append_items (pid : Nat) (pd : LaneData) (its : List Item)
    (rest : List LaneChild) :
    childrenInvB pid pd (its.map LaneChild.item ++ rest) = childrenInvB pid pd rest := by
  induction its with
  | nil => rfl
  | cons i its ih =>
    simpa [childrenInvB] using ih

/-- The hierarchy checker over lane children is the pointwise fit
condition. -/
theorem childrenInvB_lanes (pid : Nat) (pd : LaneData) (ls : List Lane) :
    childrenInvB pid pd (ls.map LaneChild.lane) = true ↔
    ∀ l ∈ ls, levelsLt pd (laneDataOf l) = true ∧
      (laneDataOf l).parentId = some pid ∧ laneInvB l = true := by
  induction ls with
  | nil => simp [childrenInvB]
  | cons l ls ih =>
    simp [childrenInvB, Bool.and_eq_true, beq_iff_eq, ih, and_assoc]

/-- A finalized entry with fitting nested lanes satisfies the lane
invariant. -/
theorem laneInvB_finalize (e : AsmEntry) (h : entryNestedOK e) :
    laneInvB (finalizeLane e) = true := by
  rw [finalizeLane, laneInvB, childrenInvB_append_items]
  exact (childrenInvB_lanes e.id e.data e.nested).mpr h

/-- Attaching keeps an entry's id. -/
theorem attachOpt_id (acc : Option Lane) (e : AsmEntry) : (attachOpt acc e).id = e.id := by
  cases acc <;> rfl

/-- Attaching keeps an entry's data. -/
theorem attachOpt_data (acc : Option Lane) (e : AsmEntry) : (attachOpt acc e).data = e.data := by
  cases acc <;> rfl

/-- Attaching keeps an entry's level. -/
theorem attachOpt_level (acc : Option Lane) (e : AsmEntry) :
    (attachOpt acc e).level = e.level := by
  cases acc <;> rfl

/-- Attaching a fitting lane preserves the nested-fit condition. -/
theorem entryNestedOK_attach (e : AsmEntry) (acc : Option Lane)
    (he : entryNestedOK e)
    (hacc : ∀ l, acc = some l → levelsLt e.data (laneDataOf l) = true ∧
      (laneDataOf l).parentId = some e.id ∧ laneInvB l = true) :
    entryNestedOK (attachOpt acc e) := by
  cases acc with
  | none => exact he
  | some l =>
    intro l' hmem
    rw [attachOpt] at hmem ⊢
    simp only at hmem
    rcases List.mem_append.mp hmem with hin | hin
    · exact he l' hin
    · rcases List.mem_singleton.mp hin with rfl
      exact hacc l' rfl

/-- The stack invariant restricts to suffixes. -/
theorem stackOK_suffix (xs : List AsmEntry) :
    ∀ ys, stackOK (xs ++ ys) → stackOK ys := by
  induction xs with
  | nil => intro ys h; exact h
  | cons e xs ih => intro ys h; exact ih ys h.2.2.2

/-- The head surviving `dropWhile` fails the predicate. -/
theorem dropWhile_head_false {α : Type} (p : α → Bool) (l : List α) :
    ∀ x ∈ (l.dropWhile p).head?, p x = false := by
  induction l with
  | nil => intro x hx; cases hx
  | cons a rest ih =>
    intro x hx
    rw [List.dropWhile] at hx
    cases hp : p a with
    | true => rw [hp] at hx; exact ih x hx
    | false =>
      rw [hp] at hx
      cases hx
      exact hp

/-- Folding a popped stack segment keeps the collapse accumulator invariant:
the collapsed lane satisfies the lane invariant and fits the remaining
stack. -/
theorem collapse_ok (popped : List AsmEntry) :
    ∀ (rest : List AsmEntry) (acc : Option Lane),
      stackOK (popped ++ rest) → accFits acc (popped ++ rest) →
      accFits (collapse acc popped) rest := by
  induction popped with
  | nil => intro rest acc _ hacc; exact hacc
  | cons e popped' ih =>
    intro rest acc h hacc
    rw [collapse]
    apply ih rest _ h.2.2.2
    constructor
    · apply laneInvB_finalize
      apply entryNestedOK_attach e acc h.1.2.2
      intro l hl
      rw [hl] at hacc
      exact ⟨hacc.2.1, hacc.2.2, hacc.1⟩
    · have hdata : laneDataOf (finalizeLane (attachOpt acc e)) = e.data := by
        rw [finalizeLane, attachOpt_data]
        rfl
      cases hlist : popped' ++ rest with
      | nil =>
        show (laneDataOf _).parentId = none
        rw [hdata]
        have hp := h.2.1
        simp only [List.append_eq] at hp
        rw [hlist] at hp
        simpa using hp
      | cons p ps =>
        have hsOK : stackOK (p :: ps) := by rw [← hlist]; exact h.2.2.2
        refine ⟨?_, ?_⟩
        · have hpl : p.data.level = some p.level := hsOK.1.1
          have hel : e.data.level = some e.level := h.1.1
          have hlt : p.level < e.level := by
            apply h.2.2.1
            simp only [List.append_eq]
            rw [hlist]
            rfl
          rw [hdata]
          unfold levelsLt
          rw [hpl, hel]
          simp [hlt]
        · show (laneDataOf _).parentId = some p.id
          rw [hdata]
          have hp := h.2.1
          simp only [List.append_eq] at hp
          rw [hlist] at hp
          simpa using hp

/-- The stack pop preserves all assembler invariants, and whatever remains
on the stack sits strictly below the new level. -/
theorem popGE_ok (level : Nat) (lanes : List Lane) (stack : List AsmEntry)
    (hs : stackOK stack) (hl : lanesOK lanes) :
    lanesOK (popGE level lanes stack).1 ∧ stackOK (popGE level lanes stack).2 ∧
    ∀ p ∈ (popGE level lanes stack).2.head?, p.level < level := by
  have hsplit : stack.takeWhile (fun e => decide (level ≤ e.level))
      ++ stack.dropWhile (fun e => decide (level ≤ e.level)) = stack :=
    List.takeWhile_append_dropWhile _ _
  have hOK : stackOK (stack.takeWhile (fun e => decide (level ≤ e.level))
      ++ stack.dropWhile (fun e => decide (level ≤ e.level))) := by
    rw [hsplit]; exact hs
  have hacc := collapse_ok _ _ none hOK trivial
  have hrestOK : stackOK (stack.dropWhile (fun e => decide (level ≤ e.level))) :=
    stackOK_suffix _ _ hOK
  have hhead : ∀ p ∈ (stack.dropWhile (fun e => decide (level ≤ e.level))).head?,
      p.level < level := by
    intro p hp
    have := dropWhile_head_false (fun e => decide (level ≤ e.level)) stack p hp
    have h2 := of_decide_eq_false this
    omega
  rw [popGE]
  cases hc : collapse none (stack.takeWhile (fun e => decide (level ≤ e.level))) with
  | none =>
    simp only
    exact ⟨hl, hrestOK, hhead⟩
  | some lfin =>
    rw [hc] at hacc
    cases hrest : stack.dropWhile (fun e => decide (level ≤ e.level)) with
    | nil =>
      simp only
      rw [hrest] at hacc
      refine ⟨?_, trivial, by simp⟩
      intro l hm
      rcases List.mem_append.mp hm with hin | hin
      · exact hl l hin
      · rcases List.mem_singleton.mp hin with rfl
        exact ⟨hacc.2, hacc.1⟩
    | cons p ps =>
      simp only
      rw [hrest] at hacc hrestOK hhead
      refine ⟨hl, ?_, ?_⟩
      · refine ⟨⟨hrestOK.1.1, hrestOK.1.2.1, ?_⟩, hrestOK.2.1, hrestOK.2.2.1, hrestOK.2.2.2⟩
        intro l hm
        simp only at hm
        rcases List.mem_append.mp hm with hin | hin
        · exact hrestOK.1.2.2 l hin
        · rcases List.mem_singleton.mp hin with rfl
          exact ⟨hacc.2.1, hacc.2.2, hacc.1⟩
      · intro q hq
        cases hq
        exact hhead p rfl

/-- Processing one heading preserves the assembler invariants: the archive
branch leaves stack and lanes untouched, and the lane branch pushes a fresh
well-formed entry onto the popped stack. -/
theorem processHeading_ok (env : Env) (md : String) (prev : Option Block) (rest : List Block)
    (depth : Nat) (content : String) (s s' : AsmState)
    (hs : stackOK s.stack) (hl : lanesOK s.lanes)
    (h : processHeading env md prev rest depth content s = some s') :
    stackOK s'.stack ∧ lanesOK s'.lanes := by
  have hlev : 1 ≤ (if depth = 0 then 1 else depth) := by split <;> omega
  have hpop := popGE_ok (if depth = 0 then 1 else depth) s.lanes s.stack hs hl
  cases harch : isArchiveLane env prev content with
  | true =>
    cases hlist : (findListAfter env rest).1 with
    | some items =>
      cases hitems : itemsFromList env md s.nextId items with
      | none => simp [processHeading, harch, hlist, hitems] at h
      | some p =>
        simp [processHeading, harch, hlist, hitems] at h
        rw [← h]
        exact ⟨hs, hl⟩
    | none =>
      simp [processHeading, harch, hlist] at h
      rw [← h]
      refine ⟨⟨⟨rfl, hlev, fun l hm => absurd hm (List.not_mem_nil l)⟩, rfl,
        hpop.2.2, hpop.2.1⟩, hpop.1⟩
  | false =>
    cases hlist : (findListAfter env rest).1 with
    | some items =>
      cases hitems : itemsFromList env md s.nextId items with
      | none => simp [processHeading, harch, hlist, hitems] at h
      | some p =>
        simp [processHeading, harch, hlist, hitems] at h
        rw [← h]
        refine ⟨⟨⟨rfl, hlev, fun l hm => absurd hm (List.not_mem_nil l)⟩, rfl,
          hpop.2.2, hpop.2.1⟩, hpop.1⟩
    | none =>
      simp [processHeading, harch, hlist] at h
      rw [← h]
      refine ⟨⟨⟨rfl, hlev, fun l hm => absurd hm (List.not_mem_nil l)⟩, rfl,
        hpop.2.2, hpop.2.1⟩, hpop.1⟩

/-- The block walk preserves the assembler invariants. -/
theorem asmGo_ok (env : Env) (md : String) (blocks : List Block) :
    ∀ (prev : Option Block) (s s' : AsmState),
      stackOK s.stack → lanesOK s.lanes →
      asmGo env md prev blocks s = some s' →
      stackOK s'.stack ∧ lanesOK s'.lanes := by
  induction blocks with
  | nil =>
    intro prev s s' hs hl h
    have h2 : some s = some s' := h
    cases h2
    exact ⟨hs, hl⟩
  | cons b rest ih =>
    intro prev s s' hs hl h
    cases b with
    | heading depth content =>
      cases hp : processHeading env md prev rest depth content s with
      | none =>
        rw [asmGo] at h
        rw [hp] at h
        exact Option.noConfusion (show (none : Option AsmState) = some s' from h)
      | some s₁ =>
        have h₁ := processHeading_ok env md prev rest depth content s s₁ hs hl hp
        have h' : asmGo env md (some (Block.heading depth content)) rest s₁ = some s' := by
          rw [asmGo] at h
          rw [hp] at h
          exact h
        exact ih _ s₁ s' h₁.1 h₁.2 h'
    | paragraph t => exact ih _ s s' hs hl h
    | list items => exact ih _ s s' hs hl h
    | thematicBreak => exact ih _ s s' hs hl h
    | code v => exact ih _ s s' hs hl h
    | other => exact ih _ s s' hs hl h

/-- C4: every board produced by `astToUnhydratedBoard` satisfies the
hierarchy invariant — every lane child carries a stored level strictly
greater than its owner's level and a parent back-reference equal to the
owner's id, recursively, and every top-level lane has no parent
back-reference.  The stack discipline (pop all entries with
`level >= newLevel`, attach to the remaining top if any else top-level,
always push) guarantees it for every parsed document. -/
theorem c4_hierarchy_invariant (env : Env) (settings frontmatter : String)
    (blocks : List Block) (md : String) (board : Board)
    (h : astToUnhydratedBoard env settings frontmatter blocks md = some board) :
    boardInvB board = true := by
  simp only [astToUnhydratedBoard, Option.bind_eq_bind, Option.bind_eq_some,
    Option.some.injEq] at h
  obtain ⟨s, hgo, hb⟩ := h
  have hok := asmGo_ok env md blocks none
    { lanes := [], archive := [], stack := [], nextId := 0 } s trivial
    (fun l hm => absurd hm (List.not_mem_nil l)) hgo
  have hpop := popGE_ok 0 s.lanes s.stack hok.1 hok.2
  have hch : board.children = (popGE 0 s.lanes s.stack).1 := by
    rw [← hb]
  rw [boardInvB, List.all_eq_true]
  intro l hml
  rw [hch] at hml
  have hlok := hpop.1 l hml
  simp [hlok.1, hlok.2]

/-- Witness for C4 at a concrete document with nesting, multi-level pops
and a trailing sibling. -/
theorem c4_witness :
    ∃ b, astToUnhydratedBoard {} "s" "f"
        [Block.heading 1 "P", Block.heading 2 "A", Block.heading 3 "C", Block.heading 2 "B",
          Block.heading 1 "Q"]
        "" = some b ∧ boardInvB b = true := by
  refine ⟨_, rfl, ?_⟩
  exact c4_hierarchy_invariant {} "s" "f"
    [Block.heading 1 "P", Block.heading 2 "A", Block.heading 3 "C", Block.heading 2 "B",
      Block.heading 1 "Q"] "" _ rfl
